import Mathlib

/-!
# Verification of the indent/outdent transforms of `src/tab.ts`

The repository's core is a pair of text transforms over a flat character
buffer with a selection `(selectionStart, selectionEnd)`:

* `indent` — on Tab: either rewrites the full line range covered by the
  selection (block mode, one extra tab stop per line) or inserts a single
  padding unit at the caret (caret mode);
* `outdent` — on Shift+Tab: always rewrites the full line range, removing
  one tab stop per line, clamped at zero, and is a no-op when the rebuilt
  text is identical to the original slice.

A buffer is modelled as `List Char`; JavaScript string indexing
`value[i]` becomes `value.get? i` (out-of-range reads yield `none`, which
compares unequal to every character, exactly as `undefined` does).

The line rewriting in the source uses
`str.replaceAll(/^[ \t]*/gm, callback)`.  With the `m` flag, `^` matches
at position 0 and at every position immediately following a line
terminator, and `[ \t]*` greedily takes the maximal run of spaces and
tabs there; `replaceAll` replaces every such match left to right (an
empty match advances the scan position by one, which skips nothing
because the next `^` anchor is in any case beyond the current one).  So
the whole call is: split the string at terminators, and replace each
segment's maximal leading run of blanks by the callback's result, the
callback receiving the run and its offset in the string.  That is how it
is modelled below (`linesWithTerm` / `rlJoin` / `replaceLeads`).
-/

/-- A space or a tab — the characters matched by `[ \t]`. -/
def isSpTab (c : Char) : Bool := c = ' ' || c = '\t'

/-- A line terminator as tested by the source (`"\n"` or `"\r"`). -/
def isTerm (c : Char) : Bool := c = '\n' || c = '\r'

/-- `getLineStart(value, index)` from `tab.ts`: scan backward while the
preceding character is not `"\n"`. -/
def getLineStart (value : List Char) : Nat → Nat
  | 0 => 0
  | i + 1 => if value.get? i = some '\n' then i + 1 else getLineStart value i

/-- Forward scan of `getLineEnd`: advance while the current position is in
range and holds neither `"\n"` nor `"\r"`.  The remaining-length fuel makes
the loop structural; it runs out exactly when `index ≥ value.length`,
where the source loop also stops. -/
def getLineEndGo (value : List Char) (index : Nat) : Nat → Nat
  | 0 => index
  | k + 1 =>
    if value.get? index = some '\n' ∨ value.get? index = some '\r' then index
    else getLineEndGo value (index + 1) k

/-- `getLineEnd(value, index)` from `tab.ts`: a position right after a
`"\n"` ends the previous line at that newline; otherwise scan forward to
the next terminator (or the end of the buffer). -/
def getLineEnd (value : List Char) (index : Nat) : Nat :=
  if 0 < index ∧ value.get? (index - 1) = some '\n' then index - 1
  else getLineEndGo value index (value.length - index)

/-- Loop of `isMultiLine`: test `value[i] == "\n"` for `i` in `[s, e)`;
the fuel is the number of positions left to inspect. -/
def isMultiLineGo (value : List Char) (i : Nat) : Nat → Bool
  | 0 => false
  | k + 1 =>
    if value.get? i = some '\n' then true else isMultiLineGo value (i + 1) k

/-- `isMultiLine(value, start, end)` from `tab.ts`. -/
def isMultiLine (value : List Char) (s e : Nat) : Bool :=
  isMultiLineGo value s (e - s)

/-- Loop of `countLeadingSpaces`, on the suffix of the buffer that starts
at the scan position: a space counts 1, a tab counts `tabSize`, anything
else stops the scan. -/
def clsGo (tabSize : Nat) : List Char → Nat
  | [] => 0
  | c :: rest =>
    if c = ' ' then 1 + clsGo tabSize rest
    else if c = '\t' then tabSize + clsGo tabSize rest
    else 0

/-- `countLeadingSpaces(value, start, tabSize)` from `tab.ts`. -/
def countLeadingSpaces (value : List Char) (start : Nat) (tabSize : Nat) : Nat :=
  clsGo tabSize (value.drop start)

/-- Split a string into its lines, keeping each line's terminator (if
any) next to it.  The last chunk always carries `none`; every other chunk
carries the `"\n"` or `"\r"` that ended it. -/
def linesWithTerm : List Char → List (List Char × Option Char)
  | [] => [([], none)]
  | c :: cs =>
    if isTerm c then ([], some c) :: linesWithTerm cs
    else
      match linesWithTerm cs with
      | (l, t) :: ls => (c :: l, t) :: ls
      | [] => [([c], none)]

/-- Reassemble the chunks produced by `linesWithTerm`, feeding each
chunk's maximal leading `[ \t]*` run and its anchor offset to the
replacer `f` — the model of `replaceAll(/^[ \t]*/gm, f)` (see the header
comment).  `p` is the offset of the current chunk in the whole string. -/
def rlJoin (f : List Char → Nat → List Char) (p : Nat) :
    List (List Char × Option Char) → List Char
  | [] => []
  | (l, t) :: ls =>
    f (l.takeWhile isSpTab) p ++ l.dropWhile isSpTab ++ t.toList ++
      rlJoin f (p + l.length + 1) ls

/-- `str.replaceAll(/^[ \t]*/gm, f)`. -/
def replaceLeads (f : List Char → Nat → List Char) (str : List Char) : List Char :=
  rlJoin f 0 (linesWithTerm str)

/-- The replacer callback of block-mode `indent` (`tab.ts` lines 22–31).
`line_end` is the absolute end offset of the rewritten range, compared —
as in the source — against the slice-relative match offset. -/
def indentReplacer (line_end tabSize : Nat) (insertSpaces : Bool)
    (str : List Char) (leading : List Char) (offset : Nat) : List Char :=
  if str.get? offset = some '\n' ∨ str.get? offset = some '\r' ∨ offset = line_end then
    leading
  else
    let tab_count := 1 + countLeadingSpaces leading 0 tabSize / tabSize
    if insertSpaces then List.replicate (tab_count * tabSize) ' '
    else List.replicate tab_count '\t'

/-- The replacer callback of `outdent` (`tab.ts` lines 72–80).  The
JavaScript `~~x` truncates toward zero, which on the here-exact division
`(count - tabSize) / tabSize` is `Int.tdiv`. -/
def outdentReplacer (tabSize : Nat) (insertSpaces : Bool)
    (leading : List Char) : List Char :=
  let tab_count : Int :=
    Int.tdiv ((countLeadingSpaces leading 0 tabSize : Int) - tabSize) tabSize
  if tab_count ≤ 0 then []
  else if insertSpaces then List.replicate (tab_count.toNat * tabSize) ' '
  else List.replicate tab_count.toNat '\t'

/-- The state the transforms read from and write to the
`HTMLTextAreaElement`. -/
structure TextArea where
  value : List Char
  selectionStart : Nat
  selectionEnd : Nat
deriving DecidableEq, Repr

/-- `IndentConfig` from `tab.ts`. -/
structure IndentConfig where
  tabSize : Nat
  insertSpaces : Bool
deriving DecidableEq, Repr

/-- Observable outcome of one transform invocation: the new buffer, the
new selection, and whether an `"input"` event was dispatched. -/
structure StepResult where
  value : List Char
  selectionStart : Nat
  selectionEnd : Nat
  dispatched : Bool
deriving DecidableEq, Repr

/-- `setRangeText(replacement, a, b, "end")`: replace `[a, b)` and place
a collapsed caret right after the inserted text. -/
def setRangeTextEnd (value repl : List Char) (a b : Nat) : List Char × Nat :=
  (value.take a ++ repl ++ value.drop b, a + repl.length)

/-- `setRangeText(replacement, a, b)` with the default `"preserve"`
selection mode of the HTML specification: selection offsets beyond the
replaced region shift by the length delta; offsets inside it clamp to the
region's start / new end. -/
def setRangeTextPreserve (value repl : List Char) (a b selS selE : Nat) :
    List Char × Nat × Nat :=
  let newValue := value.take a ++ repl ++ value.drop b
  let s' := if selS > b then selS + repl.length - (b - a)
            else if selS > a then a else selS
  let e' := if selE > b then selE + repl.length - (b - a)
            else if selE > a then a + repl.length else selE
  (newValue, s', e')

/-- The block-mode decision of `indent` (`tab.ts` lines 17–21). -/
def indentBlockCond (value : List Char) (start e : Nat) : Bool :=
  let start_at_line_start := start == 0 || value.get? (start - 1) == some '\n'
  let end_at_line_end := e == value.length || value.get? e == some '\n'
    || value.get? e == some '\r'
  let select_both_ends := start != e && start_at_line_start && end_at_line_end
  select_both_ends || isMultiLine value start e

/-- `indent(input, config)` from `tab.ts`. -/
def indent (input : TextArea) (config : IndentConfig) : StepResult :=
  let tabSize := config.tabSize
  let insertSpaces := config.insertSpaces
  let start := input.selectionStart
  let e := input.selectionEnd
  let value := input.value
  let line_start := getLineStart value start
  let line_end := getLineEnd value e
  if indentBlockCond value start e then
    let slice := (value.drop line_start).take (line_end - line_start)
    let replacement :=
      replaceLeads (indentReplacer line_end tabSize insertSpaces slice) slice
    let res := setRangeTextPreserve value replacement line_start line_end start e
    { value := res.1, selectionStart := res.2.1, selectionEnd := res.2.2,
      dispatched := true }
  else
    let replacement :=
      if insertSpaces then
        List.replicate (tabSize - (start - line_start) % tabSize) ' '
      else ['\t']
    let res := setRangeTextEnd value replacement start e
    { value := res.1, selectionStart := res.2, selectionEnd := res.2,
      dispatched := true }

/-- `outdent(input, config)` from `tab.ts`. -/
def outdent (input : TextArea) (config : IndentConfig) : StepResult :=
  let tabSize := config.tabSize
  let insertSpaces := config.insertSpaces
  let start := input.selectionStart
  let e := input.selectionEnd
  let value := input.value
  let line_start := getLineStart value start
  let line_end := getLineEnd value e
  let value_slice := (value.drop line_start).take (line_end - line_start)
  let replacement :=
    replaceLeads (fun leading _ => outdentReplacer tabSize insertSpaces leading)
      value_slice
  if replacement = value_slice then
    { value := value, selectionStart := start, selectionEnd := e,
      dispatched := false }
  else
    let res := setRangeTextPreserve value replacement line_start line_end start e
    { value := res.1, selectionStart := res.2.1, selectionEnd := res.2.2,
      dispatched := true }

/-! ## Specification-side vocabulary -/

/-- The spec's block-mode condition (§4.2): non-empty selection with both
ends on line boundaries, or a `"\n"` inside the selection.  A selection
`[s, e)` of offset positions covers exactly the characters at indices
`s ≤ i < e`, so "a `\n` strictly between start and end" is a newline at
such an index. -/
def specBlockCond (value : List Char) (s e : Nat) : Prop :=
  (s ≠ e ∧ (s = 0 ∨ value.get? (s - 1) = some '\n') ∧
    (e = value.length ∨ value.get? e = some '\n' ∨ value.get? e = some '\r')) ∨
  (∃ i, s ≤ i ∧ i < e ∧ value.get? i = some '\n')

/-- The lines of a string, split at `"\n"` / `"\r"` (terminators not
included in the lines). -/
def splitLines (s : List Char) : List (List Char) :=
  (linesWithTerm s).map Prod.fst

/-- The sequence of line terminators of a string, in order. -/
def termSeq (s : List Char) : List Char := s.filter isTerm

/-- A line's content after its leading run of blanks. -/
def stripLead (l : List Char) : List Char := l.dropWhile isSpTab

/-- Leading-whitespace width of a line (§4.1 of the spec). -/
def leadWidth (tabSize : Nat) (l : List Char) : Nat := clsGo tabSize l

/-- Leading-whitespace width of the line containing offset `i` of a
buffer: the width of the blank run at the line's start.  (`clsGo` stops
at the first non-blank character, in particular at the line's terminator,
so the scan never leaves the line.) -/
def lineLeadingWidth (value : List Char) (i tabSize : Nat) : Nat :=
  clsGo tabSize (value.drop (getLineStart value i))

/-- The `line_start` local of both transforms. -/
def lineStartOf (input : TextArea) : Nat :=
  getLineStart input.value input.selectionStart

/-- The `line_end` local of both transforms. -/
def lineEndOf (input : TextArea) : Nat :=
  getLineEnd input.value input.selectionEnd

/-- The `value_slice` local: the full line range covered by the
selection. -/
def lineRangeSlice (input : TextArea) : List Char :=
  (input.value.drop (lineStartOf input)).take (lineEndOf input - lineStartOf input)

/-- The `replacement` local of `outdent`: the rebuilt full line range. -/
def outdentRebuilt (input : TextArea) (cfg : IndentConfig) : List Char :=
  replaceLeads (fun leading _ => outdentReplacer cfg.tabSize cfg.insertSpaces leading)
    (lineRangeSlice input)

/-- The `replacement` local of block-mode `indent`: the rebuilt full
line range. -/
def indentRebuilt (input : TextArea) (cfg : IndentConfig) : List Char :=
  replaceLeads
    (indentReplacer (lineEndOf input) cfg.tabSize cfg.insertSpaces (lineRangeSlice input))
    (lineRangeSlice input)

/-- The `replacement` local of caret-mode `indent`. -/
def caretReplacement (input : TextArea) (cfg : IndentConfig) : List Char :=
  if cfg.insertSpaces then
    List.replicate
      (cfg.tabSize - (input.selectionStart - lineStartOf input) % cfg.tabSize) ' '
  else ['\t']

/-- Reassemble the chunks of `linesWithTerm` unchanged. -/
def joinLT (ls : List (List Char × Option Char)) : List Char :=
  (ls.map fun pr => pr.1 ++ pr.2.toList).flatten

/-- What `rlJoin` does to each chunk, chunk by chunk, keeping track of
the anchor offsets. -/
def mapAnchors (f : List Char → Nat → List Char) (p : Nat) :
    List (List Char × Option Char) → List (List Char × Option Char)
  | [] => []
  | (l, t) :: ls =>
    (f (l.takeWhile isSpTab) p ++ l.dropWhile isSpTab, t) ::
      mapAnchors f (p + l.length + 1) ls

/-- Well-formed output of `linesWithTerm`: nonempty, every line
terminator-free, every chunk but the last carrying a terminator, the
last carrying `none`. -/
def chunksWF : List (List Char × Option Char) → Prop
  | [] => False
  | [(l, t)] => (∀ c ∈ l, isTerm c = false) ∧ t = none
  | (l, t) :: p :: rest =>
    (∀ c ∈ l, isTerm c = false) ∧ (∃ c, t = some c ∧ isTerm c = true) ∧
      chunksWF (p :: rest)

/-- What block-mode `indent` does to one (non-empty) line: replace its
leading blank run by the run of the next tab stop. -/
def indLine (tabSize : Nat) (insertSpaces : Bool) (l : List Char) : List Char :=
  (if insertSpaces then
     List.replicate ((1 + leadWidth tabSize (l.takeWhile isSpTab) / tabSize) * tabSize) ' '
   else
     List.replicate (1 + leadWidth tabSize (l.takeWhile isSpTab) / tabSize) '\t') ++
    l.dropWhile isSpTab

/-- What `outdent` does to every line: replace its leading blank run by
the run one tab stop down, clamped at zero. -/
def outLine (tabSize : Nat) (insertSpaces : Bool) (l : List Char) : List Char :=
  outdentReplacer tabSize insertSpaces (l.takeWhile isSpTab) ++ l.dropWhile isSpTab

/-! ## Character and width lemmas -/

theorem isSpTab_cases {c : Char} (h : isSpTab c = true) : c = ' ' ∨ c = '\t' := by
  simpa [isSpTab] using h

theorem isTerm_of_spTab {c : Char} (h : isSpTab c = true) : isTerm c = false := by
  rcases isSpTab_cases h with rfl | rfl <;> decide

theorem isSpTab_of_term {c : Char} (h : isTerm c = true) : isSpTab c = false := by
  have : c = '\n' ∨ c = '\r' := by simpa [isTerm] using h
  rcases this with rfl | rfl <;> decide

theorem ne_nl_of_spTab {c : Char} (h : isSpTab c = true) : c ≠ '\n' := by
  rcases isSpTab_cases h with rfl | rfl <;> decide

theorem clsGo_append_of_all {t : Nat} {a : List Char}
    (h : ∀ c ∈ a, isSpTab c = true) (b : List Char) :
    clsGo t (a ++ b) = clsGo t a + clsGo t b := by
  induction a with
  | nil => simp [clsGo]
  | cons c a ih =>
    have hc := isSpTab_cases (h c (List.mem_cons_self c a))
    have ha : ∀ c ∈ a, isSpTab c = true := fun d hd => h d (List.mem_cons_of_mem _ hd)
    rcases hc with rfl | rfl <;> simp [clsGo, ih ha, Nat.add_assoc]

theorem clsGo_replicate_space (t n : Nat) : clsGo t (List.replicate n ' ') = n := by
  induction n with
  | zero => rfl
  | succ n ih => simp [List.replicate_succ, clsGo, ih, Nat.add_comm]

theorem clsGo_replicate_tab (t n : Nat) : clsGo t (List.replicate n '\t') = n * t := by
  induction n with
  | zero => simp [clsGo]
  | succ n ih => simp [List.replicate_succ, clsGo, ih, Nat.succ_mul, Nat.add_comm]

theorem clsGo_dropWhile (t : Nat) (l : List Char) :
    clsGo t (l.dropWhile isSpTab) = 0 := by
  induction l with
  | nil => rfl
  | cons c l ih =>
    by_cases hc : isSpTab c = true
    · simpa [List.dropWhile_cons, hc] using ih
    · have : c ≠ ' ' ∧ c ≠ '\t' := by
        constructor <;> rintro rfl <;> simp [isSpTab] at hc
      simp [List.dropWhile_cons, hc, clsGo, this.1, this.2]

theorem clsGo_takeWhile (t : Nat) (l : List Char) :
    clsGo t (l.takeWhile isSpTab) = clsGo t l := by
  induction l with
  | nil => rfl
  | cons c l ih =>
    by_cases hc : isSpTab c = true
    · rcases isSpTab_cases hc with rfl | rfl <;> simp [List.takeWhile_cons, hc, clsGo, ih]
    · have : c ≠ ' ' ∧ c ≠ '\t' := by
        constructor <;> rintro rfl <;> simp [isSpTab] at hc
      simp [List.takeWhile_cons, hc, clsGo, this.1, this.2]

theorem clsGo_eq_zero_of_takeWhile_nil {t : Nat} {l : List Char}
    (h : l.takeWhile isSpTab = []) : clsGo t l = 0 := by
  rw [← clsGo_takeWhile, h]; rfl

theorem takeWhile_all_spTab (l : List Char) :
    ∀ c ∈ l.takeWhile isSpTab, isSpTab c = true := fun _ hc =>
  List.mem_takeWhile_imp hc

theorem takeWhile_append_of_all {p : Char → Bool} {a : List Char}
    (h : ∀ c ∈ a, p c = true) (b : List Char) :
    (a ++ b).takeWhile p = a ++ b.takeWhile p := by
  induction a with
  | nil => rfl
  | cons c a ih =>
    have hc := h c (List.mem_cons_self c a)
    simp [List.takeWhile_cons, hc, ih fun d hd => h d (List.mem_cons_of_mem _ hd)]

theorem dropWhile_append_of_all {p : Char → Bool} {a : List Char}
    (h : ∀ c ∈ a, p c = true) (b : List Char) :
    (a ++ b).dropWhile p = b.dropWhile p := by
  induction a with
  | nil => rfl
  | cons c a ih =>
    have hc := h c (List.mem_cons_self c a)
    simp [List.dropWhile_cons, hc, ih fun d hd => h d (List.mem_cons_of_mem _ hd)]

theorem dropWhile_idem (p : Char → Bool) (l : List Char) :
    (l.dropWhile p).dropWhile p = l.dropWhile p := by
  induction l with
  | nil => rfl
  | cons c l ih =>
    by_cases hc : p c = true
    · simpa [List.dropWhile_cons, hc] using ih
    · simp [List.dropWhile_cons, hc]

theorem dropWhile_eq_self_of_takeWhile_nil {p : Char → Bool} {l : List Char}
    (h : l.takeWhile p = []) : l.dropWhile p = l := by
  cases l with
  | nil => rfl
  | cons c l =>
    by_cases hc : p c = true
    · simp [List.takeWhile_cons, hc] at h
    · simp [List.dropWhile_cons, hc]

/-! ## Structure of `linesWithTerm` and `rlJoin` -/

theorem linesWithTerm_ne_nil (s : List Char) : linesWithTerm s ≠ [] := by
  cases s with
  | nil => simp [linesWithTerm]
  | cons c cs =>
    by_cases hc : isTerm c = true
    · simp [linesWithTerm, hc]
    · simp only [linesWithTerm, hc, if_neg]
      cases linesWithTerm cs <;> simp

theorem linesWithTerm_noTerm {a : List Char} (h : ∀ c ∈ a, isTerm c = false) :
    linesWithTerm a = [(a, none)] := by
  induction a with
  | nil => rfl
  | cons c a ih =>
    have hc := h c (List.mem_cons_self c a)
    have ha := ih fun d hd => h d (List.mem_cons_of_mem _ hd)
    simp [linesWithTerm, hc, ha]

theorem linesWithTerm_append_term {a : List Char} (h : ∀ c ∈ a, isTerm c = false)
    {c : Char} (hc : isTerm c = true) (r : List Char) :
    linesWithTerm (a ++ c :: r) = (a, some c) :: linesWithTerm r := by
  induction a with
  | nil => simp [linesWithTerm, hc]
  | cons d a ih =>
    have hd := h d (List.mem_cons_self d a)
    have ha := ih fun x hx => h x (List.mem_cons_of_mem _ hx)
    simp [linesWithTerm, hd, ha]

theorem joinLT_linesWithTerm (s : List Char) : joinLT (linesWithTerm s) = s := by
  induction s with
  | nil => rfl
  | cons c cs ih =>
    by_cases hc : isTerm c = true
    · simp only [linesWithTerm, hc, if_pos]
      simpa [joinLT] using ih
    · simp only [linesWithTerm, hc, if_neg]
      rcases hlw : linesWithTerm cs with _ | ⟨⟨l, t⟩, ls⟩
      · exact absurd hlw (linesWithTerm_ne_nil cs)
      · rw [hlw] at ih
        simpa [joinLT] using ih

theorem chunksWF_linesWithTerm (s : List Char) : chunksWF (linesWithTerm s) := by
  induction s with
  | nil => exact ⟨by simp, rfl⟩
  | cons c cs ih =>
    by_cases hc : isTerm c = true
    · simp only [linesWithTerm, hc, if_pos]
      rcases hlw : linesWithTerm cs with _ | ⟨p, rest⟩
      · exact absurd hlw (linesWithTerm_ne_nil cs)
      · rw [hlw] at ih
        exact ⟨by simp, ⟨c, rfl, hc⟩, ih⟩
    · simp only [linesWithTerm, hc, if_neg]
      rcases hlw : linesWithTerm cs with _ | ⟨⟨l, t⟩, ls⟩
      · exact absurd hlw (linesWithTerm_ne_nil cs)
      · rw [hlw] at ih
        cases ls with
        | nil =>
          rcases ih with ⟨hl, ht⟩
          refine ⟨?_, ht⟩
          intro d hd
          rcases List.mem_cons.mp hd with rfl | hd
          · simpa using hc
          · exact hl d hd
        | cons q qs =>
          rcases ih with ⟨hl, ht, hrest⟩
          refine ⟨?_, ht, hrest⟩
          intro d hd
          rcases List.mem_cons.mp hd with rfl | hd
          · simpa using hc
          · exact hl d hd

theorem rlJoin_eq_joinLT (f : List Char → Nat → List Char) (p : Nat)
    (ls : List (List Char × Option Char)) :
    rlJoin f p ls = joinLT (mapAnchors f p ls) := by
  induction ls generalizing p with
  | nil => rfl
  | cons pr ls ih =>
    obtain ⟨l, t⟩ := pr
    simp [rlJoin, mapAnchors, joinLT, ih]

theorem splitLines_of_noTerm {a : List Char} (h : ∀ c ∈ a, isTerm c = false) :
    splitLines a = [a] := by
  simp [splitLines, linesWithTerm_noTerm h]

theorem splitLines_append_term {a : List Char} (h : ∀ c ∈ a, isTerm c = false)
    {c : Char} (hc : isTerm c = true) (r : List Char) :
    splitLines (a ++ c :: r) = a :: splitLines r := by
  simp [splitLines, linesWithTerm_append_term h hc]

theorem splitLines_joinLT : ∀ {ls : List (List Char × Option Char)},
    chunksWF ls → splitLines (joinLT ls) = ls.map Prod.fst
  | [], h => absurd h (by simp [chunksWF])
  | [(l, t)], h => by
    rcases h with ⟨hl, rfl⟩
    simpa [joinLT] using splitLines_of_noTerm hl
  | (l, t) :: q :: rest, h => by
    rcases h with ⟨hl, ⟨c, rfl, hc⟩, hrest⟩
    have ih := splitLines_joinLT hrest
    have : joinLT ((l, some c) :: q :: rest) = l ++ c :: joinLT (q :: rest) := by
      simp [joinLT]
    rw [this, splitLines_append_term hl hc, ih]
    rfl

theorem chunksWF_mapAnchors {f : List Char → Nat → List Char}
    (hf : ∀ lead off, (∀ c ∈ lead, isSpTab c = true) →
      ∀ c ∈ f lead off, isSpTab c = true) :
    ∀ {ls : List (List Char × Option Char)}, chunksWF ls →
      ∀ p, chunksWF (mapAnchors f p ls)
  | [], h => absurd h (by simp [chunksWF])
  | [(l, t)], h => by
    rcases h with ⟨hl, rfl⟩
    intro p
    refine ⟨?_, rfl⟩
    intro d hd
    rcases List.mem_append.mp hd with hd | hd
    · exact isTerm_of_spTab (hf _ p (takeWhile_all_spTab l) d hd)
    · exact hl d ((List.dropWhile_sublist isSpTab).subset hd)
  | (l, t) :: q :: rest, h => by
    rcases h with ⟨hl, ⟨c, rfl, hc⟩, hrest⟩
    obtain ⟨ql, qt⟩ := q
    intro p
    have ihrest := chunksWF_mapAnchors hf hrest (p + l.length + 1)
    have hline : ∀ d ∈ f (l.takeWhile isSpTab) p ++ l.dropWhile isSpTab,
        isTerm d = false := by
      intro d hd
      rcases List.mem_append.mp hd with hd | hd
      · exact isTerm_of_spTab (hf _ p (takeWhile_all_spTab l) d hd)
      · exact hl d ((List.dropWhile_sublist isSpTab).subset hd)
    exact ⟨hline, ⟨c, rfl, hc⟩, ihrest⟩

theorem mapAnchors_length (f : List Char → Nat → List Char) :
    ∀ (ls : List (List Char × Option Char)) (p : Nat),
      (mapAnchors f p ls).length = ls.length
  | [], _ => rfl
  | (l, t) :: ls, p => by
    simp [mapAnchors, mapAnchors_length f ls]

theorem mapAnchors_filterMap_snd (f : List Char → Nat → List Char) :
    ∀ (ls : List (List Char × Option Char)) (p : Nat),
      (mapAnchors f p ls).filterMap Prod.snd = ls.filterMap Prod.snd
  | [], _ => rfl
  | (l, t) :: ls, p => by
    simp [mapAnchors, List.filterMap_cons, mapAnchors_filterMap_snd f ls]

theorem termSeq_joinLT : ∀ {ls : List (List Char × Option Char)},
    chunksWF ls → termSeq (joinLT ls) = ls.filterMap Prod.snd
  | [], h => absurd h (by simp [chunksWF])
  | [(l, t)], h => by
    rcases h with ⟨hl, rfl⟩
    simp only [joinLT, List.map_cons, List.map_nil, Option.toList_none,
      List.append_nil, List.flatten_cons, List.flatten_nil, termSeq,
      List.filterMap_cons, List.filterMap_nil]
    rw [List.filter_eq_nil_iff.mpr]
    intro a ha
    simp [hl a ha]
  | (l, t) :: q :: rest, h => by
    rcases h with ⟨hl, ⟨c, rfl, hc⟩, hrest⟩
    have ih := termSeq_joinLT hrest
    have hjoin : joinLT ((l, some c) :: q :: rest) = l ++ c :: joinLT (q :: rest) := by
      simp [joinLT]
    rw [hjoin]
    simp only [termSeq, List.filter_append, List.filter_cons, hc, if_pos,
      List.filterMap_cons]
    rw [List.filter_eq_nil_iff.mpr (by intro a ha; simp [hl a ha])]
    simpa [termSeq] using ih

theorem mapAnchors_map_stripLead {f : List Char → Nat → List Char}
    (hf : ∀ lead off, (∀ c ∈ lead, isSpTab c = true) →
      ∀ c ∈ f lead off, isSpTab c = true) :
    ∀ (ls : List (List Char × Option Char)) (p : Nat),
      (mapAnchors f p ls).map (fun pr => stripLead pr.1) =
        ls.map fun pr => stripLead pr.1
  | [], _ => rfl
  | (l, t) :: ls, p => by
    have hhead : stripLead (f (l.takeWhile isSpTab) p ++ l.dropWhile isSpTab) =
        stripLead l := by
      unfold stripLead
      rw [dropWhile_append_of_all (hf _ p (takeWhile_all_spTab l)),
        dropWhile_idem]
    simp [mapAnchors, hhead, mapAnchors_map_stripLead hf ls]

theorem mapAnchors_const (g : List Char → List Char) :
    ∀ (ls : List (List Char × Option Char)) (p : Nat),
      mapAnchors (fun lead _ => g lead) p ls =
        ls.map fun pr => (g (pr.1.takeWhile isSpTab) ++ pr.1.dropWhile isSpTab, pr.2)
  | [], _ => rfl
  | (l, t) :: ls, p => by
    simp [mapAnchors, mapAnchors_const g ls]

/-! ## The two replacers -/

theorem replicate_all_spTab_space (n : Nat) :
    ∀ c ∈ List.replicate n ' ', isSpTab c = true := by
  intro c hc
  rw [List.eq_of_mem_replicate hc]
  rfl

theorem replicate_all_spTab_tab (n : Nat) :
    ∀ c ∈ List.replicate n '\t', isSpTab c = true := by
  intro c hc
  rw [List.eq_of_mem_replicate hc]
  rfl

theorem outdentReplacer_all_spTab (t : Nat) (sp : Bool) (lead : List Char) :
    ∀ c ∈ outdentReplacer t sp lead, isSpTab c = true := by
  intro c hc
  simp only [outdentReplacer] at hc
  split at hc
  · simp at hc
  · split at hc
    · exact replicate_all_spTab_space _ c hc
    · exact replicate_all_spTab_tab _ c hc

theorem indentReplacer_all_spTab (le t : Nat) (sp : Bool) (str : List Char) :
    ∀ lead off, (∀ c ∈ lead, isSpTab c = true) →
      ∀ c ∈ indentReplacer le t sp str lead off, isSpTab c = true := by
  intro lead off hlead c hc
  unfold indentReplacer at hc
  split at hc
  · exact hlead c hc
  · split at hc
    · exact replicate_all_spTab_space _ c hc
    · exact replicate_all_spTab_tab _ c hc

theorem countLeadingSpaces_zero (l : List Char) (t : Nat) :
    countLeadingSpaces l 0 t = clsGo t l := by
  simp [countLeadingSpaces]

theorem outdentReplacer_width {t : Nat} (ht : 1 ≤ t) (sp : Bool) (lead : List Char) :
    clsGo t (outdentReplacer t sp lead) = t * (clsGo t lead / t - 1) := by
  simp only [outdentReplacer, countLeadingSpaces_zero]
  by_cases hw : clsGo t lead < t
  · have h1 : ((clsGo t lead : Int) - t) = -(((t - clsGo t lead : Nat)) : Int) := by
      omega
    have h2 : Int.tdiv (-(((t - clsGo t lead : Nat)) : Int)) t =
        -((((t - clsGo t lead) / t : Nat)) : Int) := by
      rw [Int.neg_tdiv, Int.ofNat_tdiv]
    have h4 : clsGo t lead / t = 0 := Nat.div_eq_of_lt hw
    rw [h1, h2,
      if_pos (neg_nonpos.mpr (Int.ofNat_nonneg ((t - clsGo t lead) / t)))]
    simp [clsGo, h4]
  · have h1 : ((clsGo t lead : Int) - t) = (((clsGo t lead - t : Nat)) : Int) := by
      omega
    rw [h1, ← Int.ofNat_tdiv]
    have hq : clsGo t lead / t - 1 = (clsGo t lead - t) / t := by
      have hz : 0 < t := by omega
      have hadd := Nat.add_div_right (clsGo t lead - t) hz
      have hwt : clsGo t lead - t + t = clsGo t lead := by omega
      rw [hwt] at hadd
      rw [hadd, Nat.add_sub_cancel]
    rw [hq]
    by_cases hk : (clsGo t lead - t) / t = 0
    · rw [if_pos (by rw [hk]; exact Int.le_refl 0)]
      simp [clsGo, hk]
    · have hpos : ¬ ((((clsGo t lead - t) / t : Nat)) : Int) ≤ 0 := by
        rw [not_le]
        exact_mod_cast Nat.pos_of_ne_zero hk
      rw [if_neg hpos]
      split
      · rw [Int.toNat_ofNat, clsGo_replicate_space]
        exact Nat.mul_comm _ _
      · rw [Int.toNat_ofNat, clsGo_replicate_tab]
        exact Nat.mul_comm _ _

theorem indLine_width {t : Nat} (sp : Bool) (l : List Char) :
    leadWidth t (indLine t sp l) = (1 + leadWidth t l / t) * t := by
  unfold indLine leadWidth
  have hl : clsGo t (l.takeWhile isSpTab) = clsGo t l := clsGo_takeWhile t l
  split
  · rw [clsGo_append_of_all (replicate_all_spTab_space _), clsGo_replicate_space,
      clsGo_dropWhile, hl, Nat.add_zero]
  · rw [clsGo_append_of_all (replicate_all_spTab_tab _), clsGo_replicate_tab,
      clsGo_dropWhile, hl, Nat.add_zero]

theorem outLine_width {t : Nat} (ht : 1 ≤ t) (sp : Bool) (l : List Char) :
    leadWidth t (outLine t sp l) = t * (leadWidth t l / t - 1) := by
  unfold outLine leadWidth
  rw [clsGo_append_of_all (outdentReplacer_all_spTab t sp _), clsGo_dropWhile,
    Nat.add_zero, outdentReplacer_width ht, clsGo_takeWhile]

/-! ## `replaceLeads` at the level of whole slices -/

theorem replaceLeads_splitLines {f : List Char → Nat → List Char}
    (hf : ∀ lead off, (∀ c ∈ lead, isSpTab c = true) →
      ∀ c ∈ f lead off, isSpTab c = true) (slice : List Char) :
    splitLines (replaceLeads f slice) =
      (mapAnchors f 0 (linesWithTerm slice)).map Prod.fst := by
  unfold replaceLeads
  rw [rlJoin_eq_joinLT]
  exact splitLines_joinLT (chunksWF_mapAnchors hf (chunksWF_linesWithTerm slice) 0)

theorem replaceLeads_termSeq {f : List Char → Nat → List Char}
    (hf : ∀ lead off, (∀ c ∈ lead, isSpTab c = true) →
      ∀ c ∈ f lead off, isSpTab c = true) (slice : List Char) :
    termSeq (replaceLeads f slice) = termSeq slice := by
  unfold replaceLeads
  rw [rlJoin_eq_joinLT,
    termSeq_joinLT (chunksWF_mapAnchors hf (chunksWF_linesWithTerm slice) 0),
    mapAnchors_filterMap_snd]
  have h := termSeq_joinLT (chunksWF_linesWithTerm slice)
  rw [joinLT_linesWithTerm] at h
  exact h.symm

theorem replaceLeads_stripLead {f : List Char → Nat → List Char}
    (hf : ∀ lead off, (∀ c ∈ lead, isSpTab c = true) →
      ∀ c ∈ f lead off, isSpTab c = true) (slice : List Char) :
    (splitLines (replaceLeads f slice)).map stripLead =
      (splitLines slice).map stripLead := by
  rw [replaceLeads_splitLines hf]
  have h := mapAnchors_map_stripLead hf (linesWithTerm slice) 0
  have hls : (splitLines slice).map stripLead =
      (linesWithTerm slice).map fun pr => stripLead pr.1 := by
    simp [splitLines, List.map_map, Function.comp_def]
  rw [hls, ← h, List.map_map]
  rfl

theorem outdent_hf (t : Nat) (sp : Bool) :
    ∀ (lead : List Char) (_off : Nat), (∀ c ∈ lead, isSpTab c = true) →
      ∀ c ∈ outdentReplacer t sp lead, isSpTab c = true :=
  fun lead _ _ => outdentReplacer_all_spTab t sp lead

theorem outdent_splitLines (t : Nat) (sp : Bool) (slice : List Char) :
    splitLines (replaceLeads (fun leading _ => outdentReplacer t sp leading) slice) =
      (splitLines slice).map (outLine t sp) := by
  rw [replaceLeads_splitLines (outdent_hf t sp), mapAnchors_const]
  simp [splitLines, List.map_map, Function.comp_def, outLine]

theorem outdentReplacer_nil (t : Nat) (sp : Bool) : outdentReplacer t sp [] = [] := by
  simp only [outdentReplacer, countLeadingSpaces_zero]
  have h0 : ((clsGo t ([] : List Char) : Nat) : Int) - t = -(t : Int) := by
    have hz : clsGo t ([] : List Char) = 0 := rfl
    rw [hz]
    omega
  rw [h0, if_pos (show Int.tdiv (-(t : Int)) t ≤ 0 by
    rw [Int.neg_tdiv, ← Int.ofNat_tdiv]
    exact neg_nonpos.mpr (Int.ofNat_nonneg _))]

theorem rlJoin_of_empty_leads {f : List Char → Nat → List Char}
    (hfnil : ∀ p, f [] p = []) :
    ∀ (ls : List (List Char × Option Char)) (p : Nat),
      (∀ pr ∈ ls, pr.1.takeWhile isSpTab = []) → rlJoin f p ls = joinLT ls
  | [], _, _ => rfl
  | (l, t) :: ls, p, h => by
    have hl := h (l, t) (List.mem_cons_self _ _)
    simp only at hl
    have hdrop : l.dropWhile isSpTab = l := dropWhile_eq_self_of_takeWhile_nil hl
    simp [rlJoin, joinLT, hl, hfnil, hdrop,
      rlJoin_of_empty_leads hfnil ls (p + l.length + 1)
        fun pr hpr => h pr (List.mem_cons_of_mem _ hpr)]

theorem replaceLeads_outdent_eq_self {t : Nat} {sp : Bool} {slice : List Char}
    (h : ∀ l ∈ splitLines slice, l.takeWhile isSpTab = []) :
    replaceLeads (fun leading _ => outdentReplacer t sp leading) slice = slice := by
  unfold replaceLeads
  rw [rlJoin_of_empty_leads (fun _ => outdentReplacer_nil t sp) _ 0,
    joinLT_linesWithTerm]
  intro pr hpr
  exact h pr.1 (by simp [splitLines]; exact ⟨pr.2, by simpa using hpr⟩)

theorem takeWhile_nil_of_width_zero {t : Nat} (ht : 1 ≤ t) {l : List Char}
    (h : clsGo t l = 0) : l.takeWhile isSpTab = [] := by
  cases l with
  | nil => rfl
  | cons c l =>
    by_cases hc : isSpTab c = true
    · exfalso
      rcases isSpTab_cases hc with rfl | rfl
      · simp [clsGo] at h
      · simp [clsGo] at h
        omega
    · simp [List.takeWhile_cons, hc]

/-! ## Width arithmetic -/

theorem indent_width_bounds {t w : Nat} (ht : 1 ≤ t) :
    w < (1 + w / t) * t ∧ (1 + w / t) * t ≤ w + t := by
  have hmod := Nat.div_add_mod w t
  have hlt : w % t < t := Nat.mod_lt w (by omega)
  have hmul : (1 + w / t) * t = t + t * (w / t) := by
    rw [Nat.add_mul, Nat.one_mul, Nat.mul_comm]
  omega

theorem outdent_width_bounds {t w : Nat} (ht : 1 ≤ t) :
    t * (w / t - 1) ≤ w ∧ w - t * (w / t - 1) ≤ 2 * t - 1 ∧
      (w % t = 0 → w - t * (w / t - 1) ≤ t) := by
  have hmod := Nat.div_add_mod w t
  have hlt : w % t < t := Nat.mod_lt w (by omega)
  rcases Nat.eq_zero_or_pos (w / t) with hq | hq
  · rw [hq] at hmod ⊢
    simp only [Nat.zero_sub, Nat.mul_zero] at hmod ⊢
    omega
  · obtain ⟨q, hq1⟩ : ∃ q, w / t = q + 1 := ⟨w / t - 1, by omega⟩
    rw [hq1] at hmod ⊢
    rw [Nat.add_sub_cancel]
    have hms : t * (q + 1) = t * q + t := Nat.mul_succ t q
    omega

/-! ## Scan lemmas for `getLineStart` and `getLineEndGo` -/

theorem getLineStart_le (v : List Char) : ∀ i, getLineStart v i ≤ i
  | 0 => Nat.le_refl 0
  | i + 1 => by
    unfold getLineStart
    split
    · exact Nat.le_refl _
    · exact Nat.le_trans (getLineStart_le v i) (Nat.le_succ i)

theorem getLineStart_anchor {v : List Char} {a : Nat}
    (ha : a = 0 ∨ v.get? (a - 1) = some '\n') :
    ∀ d, (∀ i, i < d → v.get? (a + i) ≠ some '\n') → getLineStart v (a + d) = a := by
  intro d
  induction d with
  | zero =>
    intro _
    rcases ha with rfl | hnl
    · rfl
    · cases a with
      | zero => rfl
      | succ b =>
        show getLineStart v (b + 1) = b + 1
        unfold getLineStart
        rw [if_pos (by simpa using hnl)]
  | succ d ih =>
    intro h
    have hstep : v.get? (a + d) ≠ some '\n' := h d (Nat.lt_succ_self d)
    show getLineStart v (a + d + 1) = a
    unfold getLineStart
    rw [if_neg hstep]
    exact ih fun i hi => h i (Nat.lt_succ_of_lt hi)

theorem getLineEndGo_spec {v : List Char} {j : Nat}
    (hj : j = v.length ∨ ∃ c, v.get? j = some c ∧ isTerm c = true) :
    ∀ fuel i, fuel = v.length - i → i ≤ j →
      (∀ k, i ≤ k → k < j → ∃ c, v.get? k = some c ∧ isTerm c = false) →
      getLineEndGo v i fuel = j := by
  have hjlen : j ≤ v.length := by
    rcases hj with rfl | ⟨c, hc, _⟩
    · exact Nat.le_refl _
    · have := List.get?_eq_some.mp hc
      exact Nat.le_of_lt this.1
  intro fuel
  induction fuel with
  | zero =>
    intro i hfuel hij _
    have : v.length ≤ i := by omega
    have : i = j := by omega
    simpa [getLineEndGo] using this
  | succ k ih =>
    intro i hfuel hij hchars
    have hilen : i < v.length := by omega
    by_cases hji : i = j
    · subst hji
      rcases hj with rfl | ⟨c, hc, hterm⟩
      · omega
      · have : c = '\n' ∨ c = '\r' := by simpa [isTerm] using hterm
        unfold getLineEndGo
        rcases this with rfl | rfl
        · rw [if_pos (Or.inl hc)]
        · rw [if_pos (Or.inr hc)]
    · have hlt : i < j := by omega
      obtain ⟨c, hc, hterm⟩ := hchars i (Nat.le_refl i) hlt
      have hne : ¬ (c = '\n') ∧ ¬ (c = '\r') := by
        constructor <;> rintro rfl <;> simp [isTerm] at hterm
      unfold getLineEndGo
      rw [if_neg (by rw [hc]; simp [hne.1, hne.2])]
      exact ih (i + 1) (by omega) (by omega)
        fun k hk1 hk2 => hchars k (by omega) hk2

/-! ## Per-index access through `map` -/

theorem getD_map_lt (f : List Char → List Char) :
    ∀ (l : List (List Char)) (i : Nat), i < l.length →
      (l.map f).getD i [] = f (l.getD i [])
  | x :: xs, 0, _ => rfl
  | x :: xs, i + 1, h => by
    simpa using getD_map_lt f xs i (by simpa using h)

theorem isMultiLineGo_iff (v : List Char) :
    ∀ (k i : Nat), isMultiLineGo v i k = true ↔
      ∃ j, i ≤ j ∧ j < i + k ∧ v.get? j = some '\n'
  | 0, i => by
    simp only [isMultiLineGo]
    constructor
    · intro h
      exact absurd h (by simp)
    · rintro ⟨j, h1, h2, _⟩
      omega
  | k + 1, i => by
    simp only [isMultiLineGo]
    by_cases h : v.get? i = some '\n'
    · rw [if_pos h]
      constructor
      · intro _
        exact ⟨i, Nat.le_refl i, by omega, h⟩
      · intro _
        rfl
    · rw [if_neg h]
      rw [isMultiLineGo_iff v k (i + 1)]
      constructor
      · rintro ⟨j, h1, h2, h3⟩
        exact ⟨j, by omega, by omega, h3⟩
      · rintro ⟨j, h1, h2, h3⟩
        refine ⟨j, ?_, by omega, h3⟩
        rcases Nat.eq_or_lt_of_le h1 with rfl | hlt
        · exact absurd h3 h
        · omega

theorem isMultiLine_iff (v : List Char) (s e : Nat) :
    isMultiLine v s e = true ↔ ∃ j, s ≤ j ∧ j < e ∧ v.get? j = some '\n' := by
  unfold isMultiLine
  rw [isMultiLineGo_iff]
  constructor
  · rintro ⟨j, h1, h2, h3⟩
    exact ⟨j, h1, by omega, h3⟩
  · rintro ⟨j, h1, h2, h3⟩
    exact ⟨j, h1, by omega, h3⟩

/-! ## Block-mode `indent`, line by line -/

theorem indentReplacer_of_head {slice : List Char} {line_end t : Nat} {sp : Bool}
    (hle : slice.length ≤ line_end) {p : Nat} {l : List Char} (hl : l ≠ [])
    (hlt : ∀ c ∈ l, isTerm c = false)
    (hdrop : ∃ tail, slice.drop p = l ++ tail) :
    indentReplacer line_end t sp slice (l.takeWhile isSpTab) p ++ l.dropWhile isSpTab =
      indLine t sp l := by
  obtain ⟨tail, htail⟩ := hdrop
  obtain ⟨c, l', rfl⟩ : ∃ c l', l = c :: l' := by
    cases l with
    | nil => exact absurd rfl hl
    | cons c l' => exact ⟨c, l', rfl⟩
  have hget : slice.get? p = some c := by
    have h1 : (slice.drop p).head? = slice.get? p := by
      rw [List.head?_drop, List.get?_eq_getElem?]
    rw [← h1, htail]
    rfl
  have hplen : p < slice.length := by
    by_contra hnp
    have hnil : slice.drop p = [] := List.drop_eq_nil_iff.mpr (by omega)
    rw [htail] at hnil
    simp at hnil
  have hcterm := hlt c (List.mem_cons_self _ _)
  have hne : ¬ (c = '\n') ∧ ¬ (c = '\r') := by
    constructor <;> rintro rfl <;> simp [isTerm] at hcterm
  have hguard : ¬ (slice.get? p = some '\n' ∨ slice.get? p = some '\r' ∨
      p = line_end) := by
    rw [hget]
    push_neg
    exact ⟨by simpa using hne.1, by simpa using hne.2, by omega⟩
  simp only [indentReplacer, indLine, leadWidth, countLeadingSpaces_zero,
    if_neg hguard]

theorem mapAnchors_indent_fst {slice : List Char} {line_end : Nat} (t : Nat)
    (sp : Bool) (hle : slice.length ≤ line_end) :
    ∀ (ls : List (List Char × Option Char)) (p : Nat), chunksWF ls →
      slice.drop p = joinLT ls →
      ∀ i, i < ls.length → (ls.map Prod.fst).getD i [] ≠ [] →
        ((mapAnchors (indentReplacer line_end t sp slice) p ls).map
            Prod.fst).getD i [] =
          indLine t sp ((ls.map Prod.fst).getD i [])
  | [], _, h, _, _, _, _ => absurd h (by simp [chunksWF])
  | [(l, tm)], p, h, hdrop, 0, _, hne => by
    rcases h with ⟨hl, rfl⟩
    simp only [List.map_cons, List.map_nil, List.getD_cons_zero] at hne ⊢
    simp only [mapAnchors, List.map_cons, List.getD_cons_zero]
    exact indentReplacer_of_head hle hne hl
      ⟨[], by rw [hdrop]; simp [joinLT]⟩
  | [(l, tm)], _, _, _, i + 1, hi, _ => by
    simp at hi
  | (l, tm) :: q :: rest, p, h, hdrop, 0, _, hne => by
    rcases h with ⟨hl, ⟨c, rfl, hc⟩, hrest⟩
    simp only [List.map_cons, List.getD_cons_zero] at hne ⊢
    simp only [mapAnchors, List.map_cons, List.getD_cons_zero]
    exact indentReplacer_of_head hle hne hl
      ⟨c :: joinLT (q :: rest), by rw [hdrop]; simp [joinLT]⟩
  | (l, tm) :: q :: rest, p, h, hdrop, i + 1, hi, hne => by
    rcases h with ⟨hl, ⟨c, rfl, hc⟩, hrest⟩
    have hdrop' : slice.drop (p + l.length + 1) = joinLT (q :: rest) := by
      have h1 : slice.drop (p + l.length + 1) = (slice.drop p).drop (l.length + 1) := by
        rw [List.drop_drop, Nat.add_assoc]
      have h2 : joinLT ((l, some c) :: q :: rest) =
          l ++ (c :: joinLT (q :: rest)) := by
        simp [joinLT]
      rw [h1, hdrop, h2, List.drop_append]
      rfl
    simp only [mapAnchors, List.map_cons, List.getD_cons_succ] at hne ⊢
    exact mapAnchors_indent_fst t sp hle (q :: rest) (p + l.length + 1) hrest
      hdrop' i (by simpa using hi) hne

/-! ## Unfolding the transforms -/

theorem outdent_eq (input : TextArea) (cfg : IndentConfig) :
    outdent input cfg =
      if outdentRebuilt input cfg = lineRangeSlice input then
        ⟨input.value, input.selectionStart, input.selectionEnd, false⟩
      else
        ⟨input.value.take (lineStartOf input) ++ outdentRebuilt input cfg ++
            input.value.drop (lineEndOf input),
          (setRangeTextPreserve input.value (outdentRebuilt input cfg)
            (lineStartOf input) (lineEndOf input) input.selectionStart
            input.selectionEnd).2.1,
          (setRangeTextPreserve input.value (outdentRebuilt input cfg)
            (lineStartOf input) (lineEndOf input) input.selectionStart
            input.selectionEnd).2.2,
          true⟩ := rfl

theorem indent_eq (input : TextArea) (cfg : IndentConfig) :
    indent input cfg =
      if indentBlockCond input.value input.selectionStart input.selectionEnd then
        ⟨input.value.take (lineStartOf input) ++ indentRebuilt input cfg ++
            input.value.drop (lineEndOf input),
          (setRangeTextPreserve input.value (indentRebuilt input cfg)
            (lineStartOf input) (lineEndOf input) input.selectionStart
            input.selectionEnd).2.1,
          (setRangeTextPreserve input.value (indentRebuilt input cfg)
            (lineStartOf input) (lineEndOf input) input.selectionStart
            input.selectionEnd).2.2,
          true⟩
      else
        ⟨input.value.take input.selectionStart ++ caretReplacement input cfg ++
            input.value.drop input.selectionEnd,
          input.selectionStart + (caretReplacement input cfg).length,
          input.selectionStart + (caretReplacement input cfg).length,
          true⟩ := rfl

/-! ## Helpers for the round-trip analysis -/

theorem get?_append_len {α : Type} {X : List α} (Y : List α) (n : Nat) :
    (X ++ Y).get? (X.length + n) = Y.get? n := by
  rw [List.get?_append_right (Nat.le_add_right _ _), Nat.add_sub_cancel_left]

theorem get?_some_mem_of_lt {α : Type} {l : List α} {n : Nat} (h : n < l.length) :
    ∃ c, l.get? n = some c ∧ c ∈ l :=
  ⟨l.get ⟨n, h⟩, List.get?_eq_get h, List.get?_mem (List.get?_eq_get h)⟩

theorem anchor_of_prefixP {P X : List Char} (hP : P = [] ∨ P.getLast? = some '\n') :
    P.length = 0 ∨ (P ++ X).get? (P.length - 1) = some '\n' := by
  rcases hP with rfl | hlast
  · exact Or.inl rfl
  · right
    have hne : P ≠ [] := by
      rintro rfl
      simp at hlast
    have hpos : 0 < P.length := List.length_pos.mpr hne
    rw [List.get?_append (by omega)]
    rw [List.getLast?_eq_get?] at hlast
    exact hlast

theorem replaceLeads_single {f : List Char → Nat → List Char} {l : List Char}
    (h : ∀ c ∈ l, isTerm c = false) :
    replaceLeads f l = f (l.takeWhile isSpTab) 0 ++ l.dropWhile isSpTab := by
  unfold replaceLeads
  rw [linesWithTerm_noTerm h]
  simp [rlJoin]

theorem clsGo_restS_zero {t : Nat} {rest S : List Char}
    (hrest : rest.takeWhile isSpTab = [])
    (hS : S = [] ∨ ∃ c S', S = c :: S' ∧ isTerm c = true) :
    clsGo t (rest ++ S) = 0 := by
  cases rest with
  | nil =>
    rcases hS with rfl | ⟨c, S', rfl, hc⟩
    · rfl
    · have hsp := isSpTab_of_term hc
      have : c ≠ ' ' ∧ c ≠ '\t' := by
        constructor <;> rintro rfl <;> simp [isSpTab] at hsp
      simp [clsGo, this.1, this.2]
  | cons c rest' =>
    have hsp : isSpTab c = false := by
      by_contra hcon
      simp [List.takeWhile_cons, Bool.of_not_eq_false hcon] at hrest
    have : c ≠ ' ' ∧ c ≠ '\t' := by
      constructor <;> rintro rfl <;> simp [isSpTab] at hsp
    simp [clsGo, this.1, this.2]

theorem getLineStart_of_spTab_run {P A Z : List Char} {m : Nat}
    (hP : P = [] ∨ P.getLast? = some '\n')
    (hA : ∀ c ∈ A, isSpTab c = true) (hm : m ≤ A.length) :
    getLineStart (P ++ (A ++ Z)) (P.length + m) = P.length := by
  apply getLineStart_anchor (anchor_of_prefixP hP)
  intro i hi
  obtain ⟨c, hc, hmem⟩ := get?_some_mem_of_lt (l := A) (n := i) (by omega)
  have hget : (P ++ (A ++ Z)).get? (P.length + i) = some c := by
    rw [get?_append_len, List.get?_append (by omega)]
    exact hc
  have hne := ne_nl_of_spTab (hA c hmem)
  intro hcon
  rw [hget] at hcon
  exact hne (Option.some_inj.mp hcon)

/-- Caret-mode `indent` with the caret inside (or at either end of) the
leading blank run of its line: the padding computed from the caret's
column is inserted at the caret, splitting the run. -/
theorem indent_caret_in_lead (P lead rest S : List Char) (d t : Nat) (sp : Bool)
    (hP : P = [] ∨ P.getLast? = some '\n')
    (hlead : ∀ c ∈ lead, isSpTab c = true)
    (hd : d ≤ lead.length) :
    indent ⟨P ++ (lead ++ (rest ++ S)), P.length + d, P.length + d⟩ ⟨t, sp⟩ =
      ⟨P ++ ((lead.take d ++
          ((if sp = true then List.replicate (t - d % t) ' ' else ['\t']) ++
            lead.drop d)) ++ (rest ++ S)),
        P.length + (d + (if sp = true then List.replicate (t - d % t) ' '
          else ['\t']).length),
        P.length + (d + (if sp = true then List.replicate (t - d % t) ' '
          else ['\t']).length), true⟩ := by
  have hls : getLineStart (P ++ (lead ++ (rest ++ S))) (P.length + d) = P.length :=
    getLineStart_of_spTab_run hP hlead hd
  have hmode : indentBlockCond (P ++ (lead ++ (rest ++ S))) (P.length + d)
      (P.length + d) = false := by
    simp [indentBlockCond, isMultiLine, Nat.sub_self, isMultiLineGo]
  have hrepl : caretReplacement
      ⟨P ++ (lead ++ (rest ++ S)), P.length + d, P.length + d⟩ ⟨t, sp⟩ =
      (if sp = true then List.replicate (t - d % t) ' ' else ['\t']) := by
    unfold caretReplacement lineStartOf
    dsimp only
    rw [hls, Nat.add_sub_cancel_left]
  have htake : (P ++ (lead ++ (rest ++ S))).take (P.length + d) = P ++ lead.take d := by
    rw [List.take_append, List.take_append_of_le_length hd]
  have hdrop : (P ++ (lead ++ (rest ++ S))).drop (P.length + d) =
      lead.drop d ++ (rest ++ S) := by
    rw [List.drop_append, List.drop_append_of_le_length hd]
  rw [indent_eq, if_neg (by simp [hmode])]
  dsimp only
  rw [hrepl, htake, hdrop]
  simp [StepResult.mk.injEq, List.append_assoc, Nat.add_assoc]

/-- `outdent` on a buffer whose selected line is `NL ++ rest` (blank run
`NL`, then terminator-free content `rest`), with the caret strictly
inside `[1, |NL|]` characters after the line start and a rebuilt lead
that differs from `NL`: the line's blank run is replaced by
`outdentReplacer NL`. -/
theorem outdent_single_line (P NL rest S : List Char) (m t : Nat) (sp : Bool)
    (hP : P = [] ∨ P.getLast? = some '\n')
    (hNL : ∀ c ∈ NL, isSpTab c = true)
    (hrest : rest.takeWhile isSpTab = [])
    (hrestT : ∀ c ∈ rest, isTerm c = false)
    (hS : S = [] ∨ ∃ c S', S = c :: S' ∧ isTerm c = true)
    (hm1 : 1 ≤ m) (hm2 : m ≤ NL.length)
    (hne : outdentReplacer t sp NL ≠ NL) :
    (outdent ⟨P ++ (NL ++ (rest ++ S)), P.length + m, P.length + m⟩ ⟨t, sp⟩).value =
      P ++ ((outdentReplacer t sp NL ++ rest) ++ S) := by
  have hls : lineStartOf ⟨P ++ (NL ++ (rest ++ S)), P.length + m, P.length + m⟩ =
      P.length := getLineStart_of_spTab_run hP hNL hm2
  have hNLchar : ∀ i, i < NL.length →
      ∃ c, (P ++ (NL ++ (rest ++ S))).get? (P.length + i) = some c ∧
        isSpTab c = true := by
    intro i hi
    obtain ⟨c, hc, hmem⟩ := get?_some_mem_of_lt (l := NL) hi
    refine ⟨c, ?_, hNL c hmem⟩
    rw [get?_append_len, List.get?_append hi]
    exact hc
  have hrestchar : ∀ i, i < rest.length →
      ∃ c, (P ++ (NL ++ (rest ++ S))).get? (P.length + (NL.length + i)) = some c ∧
        isTerm c = false := by
    intro i hi
    obtain ⟨c, hc, hmem⟩ := get?_some_mem_of_lt (l := rest) hi
    refine ⟨c, ?_, hrestT c hmem⟩
    rw [get?_append_len, get?_append_len, List.get?_append hi]
    exact hc
  have hle : lineEndOf ⟨P ++ (NL ++ (rest ++ S)), P.length + m, P.length + m⟩ =
      P.length + (NL.length + rest.length) := by
    show getLineEnd (P ++ (NL ++ (rest ++ S))) (P.length + m) =
      P.length + (NL.length + rest.length)
    unfold getLineEnd
    rw [if_neg ?hbr]
    case hbr =>
      rintro ⟨-, hcon⟩
      obtain ⟨c, hc, hcsp⟩ := hNLchar (m - 1) (by omega)
      have : P.length + m - 1 = P.length + (m - 1) := by omega
      rw [this, hc] at hcon
      exact ne_nl_of_spTab hcsp (by simpa using hcon)
    apply getLineEndGo_spec
    · rcases hS with rfl | ⟨c, S', rfl, hc⟩
      · left
        simp
      · right
        refine ⟨c, ?_, hc⟩
        have harr : P.length + (NL.length + rest.length) =
            P.length + (NL.length + (rest.length + 0)) := by omega
        rw [harr, get?_append_len, get?_append_len, get?_append_len]
        rfl
    · rfl
    · omega
    · intro k hk1 hk2
      have hsplit : k - P.length < NL.length ∨
          (NL.length ≤ k - P.length ∧ k - P.length - NL.length < rest.length) := by
        omega
      rcases hsplit with hcase | ⟨hcase1, hcase2⟩
      · obtain ⟨c, hc, hcsp⟩ := hNLchar (k - P.length) hcase
        refine ⟨c, ?_, isTerm_of_spTab hcsp⟩
        have : k = P.length + (k - P.length) := by omega
        rw [this]
        exact hc
      · obtain ⟨c, hc, hct⟩ := hrestchar (k - P.length - NL.length) hcase2
        refine ⟨c, ?_, hct⟩
        have : k = P.length + (NL.length + (k - P.length - NL.length)) := by omega
        rw [this]
        exact hc
  have hslice : lineRangeSlice
      ⟨P ++ (NL ++ (rest ++ S)), P.length + m, P.length + m⟩ = NL ++ rest := by
    unfold lineRangeSlice
    rw [hls, hle]
    have hsub : P.length + (NL.length + rest.length) - P.length =
        NL.length + rest.length := by omega
    rw [hsub]
    show ((P ++ (NL ++ (rest ++ S))).drop P.length).take (NL.length + rest.length) =
      NL ++ rest
    rw [List.drop_left, List.take_append, List.take_left]
  have hrebuilt : outdentRebuilt
      ⟨P ++ (NL ++ (rest ++ S)), P.length + m, P.length + m⟩ ⟨t, sp⟩ =
      outdentReplacer t sp NL ++ rest := by
    unfold outdentRebuilt
    rw [hslice, replaceLeads_single ?hterm]
    case hterm =>
      intro c hc
      rcases List.mem_append.mp hc with hc | hc
      · exact isTerm_of_spTab (hNL c hc)
      · exact hrestT c hc
    rw [takeWhile_append_of_all hNL, hrest, List.append_nil,
      dropWhile_append_of_all hNL, dropWhile_eq_self_of_takeWhile_nil hrest]
  have hnoop : outdentRebuilt
      ⟨P ++ (NL ++ (rest ++ S)), P.length + m, P.length + m⟩ ⟨t, sp⟩ ≠
      lineRangeSlice ⟨P ++ (NL ++ (rest ++ S)), P.length + m, P.length + m⟩ := by
    rw [hrebuilt, hslice]
    intro hcon
    exact hne (List.append_cancel_right hcon)
  rw [outdent_eq, if_neg hnoop]
  show (P ++ (NL ++ (rest ++ S))).take
      (lineStartOf ⟨P ++ (NL ++ (rest ++ S)), P.length + m, P.length + m⟩) ++
      outdentRebuilt ⟨P ++ (NL ++ (rest ++ S)), P.length + m, P.length + m⟩ ⟨t, sp⟩ ++
      (P ++ (NL ++ (rest ++ S))).drop
        (lineEndOf ⟨P ++ (NL ++ (rest ++ S)), P.length + m, P.length + m⟩) =
    P ++ ((outdentReplacer t sp NL ++ rest) ++ S)
  rw [hls, hle, hrebuilt, List.take_left]
  have hgroup : P ++ (NL ++ (rest ++ S)) = ((P ++ NL) ++ rest) ++ S := by
    simp [List.append_assoc]
  have hdropS : (P ++ (NL ++ (rest ++ S))).drop
      (P.length + (NL.length + rest.length)) = S := by
    rw [hgroup]
    apply List.drop_left'
    simp
  rw [hdropS]
  simp [List.append_assoc]

theorem getLineStart_at_anchor {P X : List Char}
    (hP : P = [] ∨ P.getLast? = some '\n') :
    getLineStart (P ++ X) P.length = P.length := by
  have h := getLineStart_anchor (anchor_of_prefixP (X := X) hP) 0
    (by intro i hi; omega)
  simpa using h

/-! ## Claims -/

/-- C1, counterexample: the claim says that for buffer `"abc"`, caret at
offset 3, tabWidth 4, useSpaces true, `indent` yields `"abc    "` (four
spaces) with the caret at 7.  It does not: the padding is
`4 - (3 % 4) = 1`, so a single space is appended and the caret lands at
offset 4. -/
theorem c1_counterexample :
    ¬ ((indent ⟨['a', 'b', 'c'], 3, 3⟩ ⟨4, true⟩).value =
        ['a', 'b', 'c', ' ', ' ', ' ', ' '] ∧
      (indent ⟨['a', 'b', 'c'], 3, 3⟩ ⟨4, true⟩).selectionStart = 7 ∧
      (indent ⟨['a', 'b', 'c'], 3, 3⟩ ⟨4, true⟩).selectionEnd = 7) := by
  decide

/-- C1, amended: for buffer `"abc"` with a caret at offset 3, tabWidth 4
and useSpaces true, `indent` appends the one space that completes the tab
stop at column 4 and leaves the caret at offset 4. -/
theorem c1_amended :
    indent ⟨['a', 'b', 'c'], 3, 3⟩ ⟨4, true⟩ =
      ⟨['a', 'b', 'c', ' '], 4, 4, true⟩ := by decide

/-- C4: in caret mode (block-mode condition false) `indent` replaces the
selection `[start, end)` by `padding = tabWidth - ((start - lineStart) %
tabWidth)` spaces when useSpaces, by one tab otherwise, and collapses the
selection to a caret right after the inserted text. -/
theorem c4_caret_mode (input : TextArea) (cfg : IndentConfig)
    (h : indentBlockCond input.value input.selectionStart input.selectionEnd =
      false) :
    indent input cfg =
      ⟨input.value.take input.selectionStart ++ caretReplacement input cfg ++
          input.value.drop input.selectionEnd,
        input.selectionStart + (caretReplacement input cfg).length,
        input.selectionStart + (caretReplacement input cfg).length, true⟩ := by
  rw [indent_eq, if_neg (by simp [h])]

/-- C4, witness at buffer `"ab"`, caret 1, tabWidth 4, useSpaces true:
three spaces are inserted and the caret lands at offset 4. -/
theorem c4_witness :
    indentBlockCond ['a', 'b'] 1 1 = false ∧
      indent ⟨['a', 'b'], 1, 1⟩ ⟨4, true⟩ =
        ⟨['a', ' ', ' ', ' ', 'b'], 4, 4, true⟩ :=
  ⟨by decide,
    (c4_caret_mode ⟨['a', 'b'], 1, 1⟩ ⟨4, true⟩ (by decide)).trans (by decide)⟩

/-- C6: `outdent` is a no-op (same state back, no `"input"` event) exactly
when the rebuilt full-line-range text equals the original slice; otherwise
it replaces the whole range in one rewrite and dispatches one event. -/
theorem c6_noop_iff (input : TextArea) (cfg : IndentConfig) :
    ((outdent input cfg).dispatched = false ↔
      outdentRebuilt input cfg = lineRangeSlice input) ∧
    (outdentRebuilt input cfg = lineRangeSlice input →
      outdent input cfg =
        ⟨input.value, input.selectionStart, input.selectionEnd, false⟩) ∧
    (outdentRebuilt input cfg ≠ lineRangeSlice input →
      (outdent input cfg).value =
        input.value.take (lineStartOf input) ++ outdentRebuilt input cfg ++
          input.value.drop (lineEndOf input) ∧
      (outdent input cfg).dispatched = true) := by
  rw [outdent_eq]
  by_cases h : outdentRebuilt input cfg = lineRangeSlice input
  · rw [if_pos h]
    exact ⟨by simp [h], fun _ => rfl, fun hne => absurd h hne⟩
  · rw [if_neg h]
    exact ⟨by simp [h], fun heq => absurd heq h, fun _ => ⟨rfl, rfl⟩⟩

/-- C7: `indent` decides for block mode exactly under the spec's
condition — a non-empty selection with both ends on line boundaries, or a
newline among the selected characters; every empty selection falls to
caret mode. -/
theorem c7_block_mode_iff (value : List Char) (s e : Nat) :
    indentBlockCond value s e = true ↔ specBlockCond value s e := by
  unfold indentBlockCond specBlockCond
  simp only [Bool.or_eq_true, Bool.and_eq_true, bne_iff_ne, beq_iff_eq,
    isMultiLine_iff]
  tauto

/-- C9: with an empty selection sitting immediately after a newline
(`value[start-1] == "\n"`, `start > 0`), `outdent` computes
`line_end = start - 1 < start = line_start`, so the slice is empty, the
rebuilt text equals it, and the call is a no-op — no rewrite, no event —
whatever the line's indentation is. -/
theorem c9_caret_after_newline_noop (v : List Char) (s : Nat) (cfg : IndentConfig)
    (hs : 0 < s) (hnl : v.get? (s - 1) = some '\n') :
    outdent ⟨v, s, s⟩ cfg = ⟨v, s, s, false⟩ := by
  obtain ⟨b, rfl⟩ : ∃ b, s = b + 1 := ⟨s - 1, by omega⟩
  have hnl' : v.get? b = some '\n' := by simpa using hnl
  have hls : lineStartOf ⟨v, b + 1, b + 1⟩ = b + 1 := by
    show getLineStart v (b + 1) = b + 1
    rw [show getLineStart v (b + 1) =
        if v.get? b = some '\n' then b + 1 else getLineStart v b from rfl,
      if_pos hnl']
  have hle : lineEndOf ⟨v, b + 1, b + 1⟩ = b := by
    show getLineEnd v (b + 1) = b
    unfold getLineEnd
    rw [if_pos ⟨Nat.succ_pos b, hnl⟩]
    omega
  have hslice : lineRangeSlice ⟨v, b + 1, b + 1⟩ = [] := by
    unfold lineRangeSlice
    rw [hls, hle, Nat.sub_eq_zero_of_le (Nat.le_succ b), List.take_zero]
  have hrebuilt : outdentRebuilt ⟨v, b + 1, b + 1⟩ cfg = [] := by
    unfold outdentRebuilt
    rw [hslice]
    simp [replaceLeads, linesWithTerm, rlJoin, outdentReplacer_nil]
  rw [outdent_eq, if_pos (by rw [hrebuilt, hslice])]

/-- C9, witness: buffer `"a\nb"`, caret at offset 2 (right after the
newline): `outdent` returns the state unchanged and dispatches nothing. -/
theorem c9_witness :
    0 < 2 ∧ ['a', '\n', 'b'].get? (2 - 1) = some '\n' ∧
      outdent ⟨['a', '\n', 'b'], 2, 2⟩ ⟨4, true⟩ =
        ⟨['a', '\n', 'b'], 2, 2, false⟩ :=
  ⟨by decide, by decide,
    c9_caret_after_newline_noop ['a', '\n', 'b'] 2 ⟨4, true⟩ (by decide) (by decide)⟩

/-- C8: once every line of the full line range has zero
leading-whitespace width, `outdent` is a no-op — the state comes back
unchanged and no `"input"` event is dispatched. -/
theorem c8_zero_indent_noop (input : TextArea) (cfg : IndentConfig)
    (ht : 1 ≤ cfg.tabSize)
    (h : ∀ l ∈ splitLines (lineRangeSlice input), leadWidth cfg.tabSize l = 0) :
    outdent input cfg =
      ⟨input.value, input.selectionStart, input.selectionEnd, false⟩ := by
  have hre : outdentRebuilt input cfg = lineRangeSlice input := by
    unfold outdentRebuilt
    exact replaceLeads_outdent_eq_self fun l hl =>
      takeWhile_nil_of_width_zero ht (h l hl)
  rw [outdent_eq, if_pos hre]

/-- C8, witness: buffer `"x"` with caret 0 has a single zero-indented
line; `outdent` changes nothing and dispatches nothing. -/
theorem c8_witness :
    (1 ≤ (4 : Nat) ∧
      ∀ l ∈ splitLines (lineRangeSlice ⟨['x'], 0, 0⟩), leadWidth 4 l = 0) ∧
      outdent ⟨['x'], 0, 0⟩ ⟨4, true⟩ = ⟨['x'], 0, 0, false⟩ :=
  ⟨⟨by decide, by decide⟩,
    c8_zero_indent_noop ⟨['x'], 0, 0⟩ ⟨4, true⟩ (by decide) (by decide)⟩

/-- C2, counterexample: the claim bounds the width removed per line by
`tabWidth`.  On the line `"     x"` (five leading spaces, tabWidth 4),
`outdent` drops the width from 5 to 0 — removing 5 > 4. -/
theorem c2_counterexample :
    lineLeadingWidth [' ', ' ', ' ', ' ', ' ', 'x'] 0 4 = 5 ∧
    (outdent ⟨[' ', ' ', ' ', ' ', ' ', 'x'], 0, 0⟩ ⟨4, true⟩).value = ['x'] ∧
    lineLeadingWidth
      (outdent ⟨[' ', ' ', ' ', ' ', ' ', 'x'], 0, 0⟩ ⟨4, true⟩).value 0 4 = 0 ∧
    ¬ (lineLeadingWidth [' ', ' ', ' ', ' ', ' ', 'x'] 0 4 -
        lineLeadingWidth
          (outdent ⟨[' ', ' ', ' ', ' ', ' ', 'x'], 0, 0⟩ ⟨4, true⟩).value 0 4 ≤ 4) := by
  decide

/-- C2, amended: per affected line, `outdent` never increases the
leading-whitespace width, never produces a negative one (ℕ), removes at
most `2·tabWidth - 1` of width in general, and at most `tabWidth` when
the line's width is a multiple of `tabWidth` (the claim's bound holds
only in that aligned case: the new width is
`tabWidth · (w / tabWidth - 1)`, clamped at zero). -/
theorem c2_outdent_width_clamped (input : TextArea) (cfg : IndentConfig)
    (ht : 1 ≤ cfg.tabSize) :
    (splitLines (outdentRebuilt input cfg)).length =
      (splitLines (lineRangeSlice input)).length ∧
    (∀ i, i < (splitLines (lineRangeSlice input)).length →
      leadWidth cfg.tabSize ((splitLines (outdentRebuilt input cfg)).getD i []) ≤
        leadWidth cfg.tabSize ((splitLines (lineRangeSlice input)).getD i []) ∧
      leadWidth cfg.tabSize ((splitLines (lineRangeSlice input)).getD i []) -
          leadWidth cfg.tabSize
            ((splitLines (outdentRebuilt input cfg)).getD i []) ≤
        2 * cfg.tabSize - 1 ∧
      (leadWidth cfg.tabSize ((splitLines (lineRangeSlice input)).getD i []) %
          cfg.tabSize = 0 →
        leadWidth cfg.tabSize ((splitLines (lineRangeSlice input)).getD i []) -
            leadWidth cfg.tabSize
              ((splitLines (outdentRebuilt input cfg)).getD i []) ≤
          cfg.tabSize)) ∧
    (outdentRebuilt input cfg ≠ lineRangeSlice input →
      (outdent input cfg).value =
        input.value.take (lineStartOf input) ++ outdentRebuilt input cfg ++
          input.value.drop (lineEndOf input)) ∧
    (outdentRebuilt input cfg = lineRangeSlice input →
      (outdent input cfg).value = input.value) := by
  have hsplit : splitLines (outdentRebuilt input cfg) =
      (splitLines (lineRangeSlice input)).map
        (outLine cfg.tabSize cfg.insertSpaces) :=
    outdent_splitLines _ _ _
  refine ⟨by rw [hsplit, List.length_map], ?_, ?_, ?_⟩
  · intro i hi
    rw [hsplit, getD_map_lt _ _ i hi, outLine_width ht]
    exact outdent_width_bounds ht
  · intro h
    rw [outdent_eq, if_neg h]
  · intro h
    rw [outdent_eq, if_pos h]

/-- C2, witness: the line-count part of the amended statement at the
counterexample's own buffer. -/
theorem c2_witness :
    1 ≤ (4 : Nat) ∧
      (splitLines (outdentRebuilt ⟨[' ', ' ', ' ', ' ', ' ', 'x'], 0, 0⟩
          ⟨4, true⟩)).length =
        (splitLines (lineRangeSlice ⟨[' ', ' ', ' ', ' ', ' ', 'x'], 0, 0⟩)).length :=
  ⟨by decide,
    (c2_outdent_width_clamped ⟨[' ', ' ', ' ', ' ', ' ', 'x'], 0, 0⟩ ⟨4, true⟩
      (by decide)).1⟩

/-- C5: whenever the block-mode condition holds, `indent` rewrites the
full line range, and every non-empty line of the slice gets strictly more
leading-whitespace width, by at most `tabWidth`. -/
theorem c5_block_indent_increases (input : TextArea) (cfg : IndentConfig)
    (ht : 1 ≤ cfg.tabSize)
    (hmode : indentBlockCond input.value input.selectionStart
      input.selectionEnd = true) :
    (indent input cfg).value =
      input.value.take (lineStartOf input) ++ indentRebuilt input cfg ++
        input.value.drop (lineEndOf input) ∧
    (splitLines (indentRebuilt input cfg)).length =
      (splitLines (lineRangeSlice input)).length ∧
    ∀ i, i < (splitLines (lineRangeSlice input)).length →
      (splitLines (lineRangeSlice input)).getD i [] ≠ [] →
        leadWidth cfg.tabSize ((splitLines (lineRangeSlice input)).getD i []) <
          leadWidth cfg.tabSize ((splitLines (indentRebuilt input cfg)).getD i []) ∧
        leadWidth cfg.tabSize ((splitLines (indentRebuilt input cfg)).getD i []) ≤
          leadWidth cfg.tabSize ((splitLines (lineRangeSlice input)).getD i []) +
            cfg.tabSize := by
  have hf := indentReplacer_all_spTab (lineEndOf input) cfg.tabSize
    cfg.insertSpaces (lineRangeSlice input)
  have hsplit : splitLines (indentRebuilt input cfg) =
      (mapAnchors (indentReplacer (lineEndOf input) cfg.tabSize cfg.insertSpaces
          (lineRangeSlice input)) 0 (linesWithTerm (lineRangeSlice input))).map
        Prod.fst :=
    replaceLeads_splitLines hf _
  have hsl : splitLines (lineRangeSlice input) =
      (linesWithTerm (lineRangeSlice input)).map Prod.fst := rfl
  refine ⟨by rw [indent_eq, if_pos hmode], ?_, ?_⟩
  · rw [hsplit, List.length_map, mapAnchors_length, hsl, List.length_map]
  · intro i hi hne
    have hle : (lineRangeSlice input).length ≤ lineEndOf input :=
      Nat.le_trans (List.length_take_le _ _) (Nat.sub_le _ _)
    have hilt : i < (linesWithTerm (lineRangeSlice input)).length := by
      rw [hsl, List.length_map] at hi
      exact hi
    have happ := mapAnchors_indent_fst cfg.tabSize cfg.insertSpaces hle
      (linesWithTerm (lineRangeSlice input)) 0 (chunksWF_linesWithTerm _)
      (by rw [List.drop_zero, joinLT_linesWithTerm]) i hilt (by rw [← hsl]; exact hne)
    rw [hsplit, happ, ← hsl, indLine_width]
    exact indent_width_bounds ht

/-- C5, witness: buffer `"a\nb"`, selection `[0, 3]`, tabWidth 4 — block
mode holds and the rewrite is the range-framed one. -/
theorem c5_witness :
    (1 ≤ (4 : Nat) ∧ indentBlockCond ['a', '\n', 'b'] 0 3 = true) ∧
      (indent ⟨['a', '\n', 'b'], 0, 3⟩ ⟨4, true⟩).value =
        ['a', '\n', 'b'].take (lineStartOf ⟨['a', '\n', 'b'], 0, 3⟩) ++
          indentRebuilt ⟨['a', '\n', 'b'], 0, 3⟩ ⟨4, true⟩ ++
          ['a', '\n', 'b'].drop (lineEndOf ⟨['a', '\n', 'b'], 0, 3⟩) :=
  ⟨⟨by decide, by decide⟩,
    (c5_block_indent_increases ⟨['a', '\n', 'b'], 0, 3⟩ ⟨4, true⟩ (by decide)
      (by decide)).1⟩

/-- C10: both transforms only rewrite the computed line range (the buffer
outside `[line_start, line_end)` is carried over verbatim — for `indent`
whenever block mode is taken, for `outdent` on every buffer and
selection), and the rebuilt range preserves the terminator sequence and
every line's content after its leading blank run — only the leading
`[ \t]*` runs change. -/
theorem c10_frame (input : TextArea) (cfg : IndentConfig) :
    (indentBlockCond input.value input.selectionStart input.selectionEnd = true →
      (indent input cfg).value =
        input.value.take (lineStartOf input) ++ indentRebuilt input cfg ++
          input.value.drop (lineEndOf input)) ∧
    termSeq (indentRebuilt input cfg) = termSeq (lineRangeSlice input) ∧
    (splitLines (indentRebuilt input cfg)).map stripLead =
      (splitLines (lineRangeSlice input)).map stripLead ∧
    ((outdent input cfg).value = input.value ∨
      (outdent input cfg).value =
        input.value.take (lineStartOf input) ++ outdentRebuilt input cfg ++
          input.value.drop (lineEndOf input)) ∧
    termSeq (outdentRebuilt input cfg) = termSeq (lineRangeSlice input) ∧
    (splitLines (outdentRebuilt input cfg)).map stripLead =
      (splitLines (lineRangeSlice input)).map stripLead := by
  have hfI := indentReplacer_all_spTab (lineEndOf input) cfg.tabSize
    cfg.insertSpaces (lineRangeSlice input)
  have hfO := outdent_hf cfg.tabSize cfg.insertSpaces
  refine ⟨fun hmode => by rw [indent_eq, if_pos hmode],
    replaceLeads_termSeq hfI _, replaceLeads_stripLead hfI _, ?_,
    replaceLeads_termSeq hfO _, replaceLeads_stripLead hfO _⟩
  rw [outdent_eq]
  by_cases h : outdentRebuilt input cfg = lineRangeSlice input
  · rw [if_pos h]
    exact Or.inl rfl
  · rw [if_neg h]
    exact Or.inr rfl

/-- C3, counterexample: buffer `"    x"` (leading width 4, a multiple of
tabWidth 4) with the caret at offset 5 — after `indent` (which inserts 3
spaces mid-line, after the `x`) and `outdent` at the resulting caret, the
line's leading-whitespace width is 0, not the original 4. -/
theorem c3_counterexample :
    lineLeadingWidth [' ', ' ', ' ', ' ', 'x'] 5 4 = 4 ∧ 4 % 4 = 0 ∧
    ¬ (lineLeadingWidth
        (outdent
          ⟨(indent ⟨[' ', ' ', ' ', ' ', 'x'], 5, 5⟩ ⟨4, true⟩).value,
            (indent ⟨[' ', ' ', ' ', ' ', 'x'], 5, 5⟩ ⟨4, true⟩).selectionStart,
            (indent ⟨[' ', ' ', ' ', ' ', 'x'], 5, 5⟩ ⟨4, true⟩).selectionEnd⟩
          ⟨4, true⟩).value
        (getLineStart [' ', ' ', ' ', ' ', 'x'] 5) 4 =
      lineLeadingWidth [' ', ' ', ' ', ' ', 'x'] 5 4) := by decide

/-- C3, amended: the indent-then-outdent round trip restores the line's
leading-whitespace width when, in addition to that width being a multiple
of tabWidth, the caret sits within the line's leading blank run (`d`
characters after the line start, `d ≤ |lead|`) and — when useSpaces — `d`
is itself a multiple of tabWidth.  (Otherwise the counterexample applies:
the inserted padding does not extend the blank run by a full stop, yet
outdent still removes a full stop.) -/
theorem c3_roundtrip_aligned (P lead rest S : List Char) (d t : Nat) (sp : Bool)
    (ht : 1 ≤ t)
    (hP : P = [] ∨ P.getLast? = some '\n')
    (hlead : ∀ c ∈ lead, isSpTab c = true)
    (hrest : rest.takeWhile isSpTab = [])
    (hrestT : ∀ c ∈ rest, isTerm c = false)
    (hS : S = [] ∨ ∃ c S', S = c :: S' ∧ isTerm c = true)
    (hd : d ≤ lead.length)
    (halign : sp = true → d % t = 0)
    (hw : clsGo t lead % t = 0) :
    lineLeadingWidth
      (outdent
        ⟨(indent ⟨P ++ (lead ++ (rest ++ S)), P.length + d, P.length + d⟩
            ⟨t, sp⟩).value,
          (indent ⟨P ++ (lead ++ (rest ++ S)), P.length + d, P.length + d⟩
            ⟨t, sp⟩).selectionStart,
          (indent ⟨P ++ (lead ++ (rest ++ S)), P.length + d, P.length + d⟩
            ⟨t, sp⟩).selectionEnd⟩
        ⟨t, sp⟩).value
      (getLineStart (P ++ (lead ++ (rest ++ S))) (P.length + d)) t =
    lineLeadingWidth (P ++ (lead ++ (rest ++ S))) (P.length + d) t := by
  have hgl : getLineStart (P ++ (lead ++ (rest ++ S))) (P.length + d) = P.length :=
    getLineStart_of_spTab_run hP hlead hd
  have hRPsp : ∀ c ∈ (if sp = true then List.replicate (t - d % t) ' '
      else ['\t']), isSpTab c = true := by
    split
    · exact replicate_all_spTab_space _
    · intro c hc
      simp only [List.mem_singleton] at hc
      subst hc
      rfl
  have hRPw : clsGo t (if sp = true then List.replicate (t - d % t) ' '
      else ['\t']) = t := by
    split
    · rename_i hsp
      rw [clsGo_replicate_space, halign hsp, Nat.sub_zero]
    · simp [clsGo]
  have hRPlen : 1 ≤ (if sp = true then List.replicate (t - d % t) ' '
      else ['\t']).length := by
    split
    · rw [List.length_replicate]
      have := Nat.mod_lt d (show 0 < t by omega)
      omega
    · simp
  have htk : ∀ c ∈ lead.take d, isSpTab c = true := fun c hc =>
    hlead c ((List.take_sublist d lead).subset hc)
  have hNLsp : ∀ c ∈ lead.take d ++
      ((if sp = true then List.replicate (t - d % t) ' ' else ['\t']) ++
        lead.drop d), isSpTab c = true := by
    intro c hc
    rcases List.mem_append.mp hc with hc | hc
    · exact htk c hc
    · rcases List.mem_append.mp hc with hc | hc
      · exact hRPsp c hc
      · exact hlead c ((List.drop_sublist d lead).subset hc)
  have hsplitw : clsGo t lead = clsGo t (lead.take d) + clsGo t (lead.drop d) := by
    conv_lhs => rw [← List.take_append_drop d lead]
    rw [clsGo_append_of_all htk]
  have hNLw : clsGo t (lead.take d ++
      ((if sp = true then List.replicate (t - d % t) ' ' else ['\t']) ++
        lead.drop d)) = clsGo t lead + t := by
    rw [clsGo_append_of_all htk, clsGo_append_of_all hRPsp, hRPw]
    omega
  have hNLlen : (lead.take d ++
      ((if sp = true then List.replicate (t - d % t) ' ' else ['\t']) ++
        lead.drop d)).length =
      lead.length +
        (if sp = true then List.replicate (t - d % t) ' ' else ['\t']).length := by
    simp only [List.length_append, List.length_take, List.length_drop]
    omega
  have hL2w : clsGo t (outdentReplacer t sp (lead.take d ++
      ((if sp = true then List.replicate (t - d % t) ' ' else ['\t']) ++
        lead.drop d))) = clsGo t lead := by
    rw [outdentReplacer_width ht, hNLw]
    have hdiv : (clsGo t lead + t) / t = clsGo t lead / t + 1 :=
      Nat.add_div_right _ (by omega)
    rw [hdiv, Nat.add_sub_cancel]
    have hmod := Nat.div_add_mod (clsGo t lead) t
    omega
  have hne : outdentReplacer t sp (lead.take d ++
      ((if sp = true then List.replicate (t - d % t) ' ' else ['\t']) ++
        lead.drop d)) ≠
      lead.take d ++
        ((if sp = true then List.replicate (t - d % t) ' ' else ['\t']) ++
          lead.drop d) := by
    intro hcon
    have hcw := congrArg (clsGo t) hcon
    rw [hL2w, hNLw] at hcw
    omega
  have hr1 := indent_caret_in_lead P lead rest S d t sp hP hlead hd
  have hr2 := outdent_single_line P
    (lead.take d ++
      ((if sp = true then List.replicate (t - d % t) ' ' else ['\t']) ++
        lead.drop d))
    rest S
    (d + (if sp = true then List.replicate (t - d % t) ' ' else ['\t']).length)
    t sp hP hNLsp hrest hrestT hS (by omega) (by omega) hne
  rw [hr1]
  dsimp only
  rw [hgl, hr2]
  unfold lineLeadingWidth
  rw [getLineStart_at_anchor hP, List.drop_left, hgl, List.drop_left,
    List.append_assoc, clsGo_append_of_all (outdentReplacer_all_spTab t sp _),
    clsGo_append_of_all hlead, clsGo_restS_zero hrest hS, hL2w]

/-- C3, witness: buffer `"    x"`, caret at offset 4 (the end of the
blank run), tabWidth 4, useSpaces — indent then outdent brings the line's
leading width back to 4. -/
theorem c3_witness :
    (1 ≤ (4 : Nat) ∧ clsGo 4 [' ', ' ', ' ', ' '] % 4 = 0) ∧
    lineLeadingWidth
      (outdent
        ⟨(indent ⟨[' ', ' ', ' ', ' ', 'x'], 4, 4⟩ ⟨4, true⟩).value,
          (indent ⟨[' ', ' ', ' ', ' ', 'x'], 4, 4⟩ ⟨4, true⟩).selectionStart,
          (indent ⟨[' ', ' ', ' ', ' ', 'x'], 4, 4⟩ ⟨4, true⟩).selectionEnd⟩
        ⟨4, true⟩).value
      (getLineStart [' ', ' ', ' ', ' ', 'x'] 4) 4 =
    lineLeadingWidth [' ', ' ', ' ', ' ', 'x'] 4 4 :=
  ⟨⟨by decide, by decide⟩,
    c3_roundtrip_aligned [] [' ', ' ', ' ', ' '] ['x'] [] 4 4 true (by decide)
      (Or.inl rfl) (by decide) (by decide) (by decide) (Or.inl rfl)
      (by decide) (fun _ => by decide) (by decide)⟩

example :
    indent ⟨['a', 'b', 'c'], 3, 3⟩ ⟨4, true⟩ =
      ⟨['a', 'b', 'c', ' '], 4, 4, true⟩ := by decide

example :
    indent ⟨['a', '\n', 'b'], 0, 3⟩ ⟨4, true⟩ =
      ⟨[' ', ' ', ' ', ' ', 'a', '\n', ' ', ' ', ' ', ' ', 'b'], 0, 11, true⟩ := by
  decide

example :
    outdent ⟨[' ', ' ', ' ', ' ', 'x'], 5, 5⟩ ⟨4, true⟩ =
      ⟨['x'], 0, 1, true⟩ := by decide

example :
    outdent ⟨['\t', 'x'], 2, 2⟩ ⟨4, false⟩ = ⟨['x'], 0, 1, true⟩ := by decide
